import Mathlib

/-!
Verification development for the Reticulum decentralized file server
(`cid_store.py`, `rns_interface.py`, `server_command_state.py`).

The content-addressed store and the replication bookkeeping are embedded
shallowly: byte strings are lists of naturals, the SHA-224 hex digest is an
abstract parameter `H : Bytes → String` (instantiated with a concrete
injective encoding for evaluation), the in-memory index and the on-disk
chunk directory are association lists, and recursion that the Python code
performs on a possibly cyclic index is given an explicit fuel argument:
`none` means the run did not complete (unbounded recursion or an uncaught
error of a kind the model does not track), `some` is the value produced.
-/

namespace RFS

/-- Raw byte sequences (Python `bytes`) as lists of naturals. -/
abbrev Bytes := List Nat

/-- Node metadata record, mirroring the `Cid` dataclass of `cid_store.py`.
`type` is one of 0 = SRC, 1 = FILE, 2 = DIR, 3 = CHUNK. -/
structure Cid where
  hash : String
  name : String
  time_stamp : Int
  size : Nat
  parent : String
  children : List String
  is_stored : Bool
  type : Nat
deriving DecidableEq, Repr

/-- Association-list lookup, mirroring Python `dict.__getitem__` /
`get_node_obj` returning `None` when absent. -/
def alookup {κ α : Type} [DecidableEq κ] : List (κ × α) → κ → Option α
  | [], _ => none
  | (k, v) :: rest, key => if k = key then some v else alookup rest key

/-- Association-list assignment, mirroring Python `dict.__setitem__`:
an existing key keeps its position, a new key is appended. -/
def aset {κ α : Type} [DecidableEq κ] : List (κ × α) → κ → α → List (κ × α)
  | [], key, v => [(key, v)]
  | (k, w) :: rest, key, v =>
    if k = key then (k, v) :: rest else (k, w) :: aset rest key v

/-- Association-list key removal (Python `dict.pop`, `os.remove`). -/
def aerase {κ α : Type} [DecidableEq κ] (l : List (κ × α)) (key : κ) : List (κ × α) :=
  l.filter (fun p => !(p.1 = key : Bool))

/-- The in-memory index `index : Dict[str, Cid]`. -/
abbrev Index := List (String × Cid)

/-- The on-disk chunk directory `<store_path>/store/<hash>`, as a map from
basename (node hash) to file contents. -/
abbrev FileStore := List (String × Bytes)

/-- The `CidStore` object state: its configured source hash, the metadata
index and the chunk files on disk. -/
structure CidStore where
  sourceHash : String
  index : Index
  fs : FileStore
deriving DecidableEq, Repr

/-- `CidStore.get_parent_hashes`: the list of ancestor hashes of a node
starting at the source.  The walk follows `parent` pointers, which peer
ingestion can make cyclic, hence the fuel; a missing node yields `[]`
(the source logs a warning and returns the empty list). -/
def getParentHashes (idx : Index) : Nat → String → Option (List String)
  | 0, _ => none
  | fuel + 1, h =>
    match alookup idx h with
    | none => some []
    | some node =>
      if node.type ≠ 0 then
        (getParentHashes idx fuel node.parent).map (fun ps => ps ++ [node.parent])
      else some []

/-- UTF-8 bytes of a string (all strings involved are ASCII hex digests). -/
def strBytes (s : String) : Bytes := s.data.map Char.toNat

/-- `CidStore.get_path_hash`: hash of the concatenation of the ancestor
hashes up to and including the given parent. -/
def getPathHash (H : Bytes → String) (idx : Index) (fuel : Nat)
    (parentHash : String) : Option String :=
  (getParentHashes idx fuel parentHash).map
    (fun ps => H (strBytes (String.join (ps ++ [parentHash]))))

/-- `CidStore.get_data_hash`: hash of the data, with the UTF-8 bytes of the
parent's path hash prepended when `includeSource` is set. -/
def getDataHash (H : Bytes → String) (idx : Index) (fuel : Nat)
    (parentHash : String) (data : Bytes) (includeSource : Bool) : Option String :=
  if includeSource then
    (getPathHash H idx fuel parentHash).map (fun ph => H (strBytes ph ++ data))
  else some (H data)

/-- `CidStore.chunk_size = 10_240`. -/
def chunkSize : Nat := 10240

/-- The chunking loop, bounded structurally: each slice consumes at least
one byte, so `d.length` iterations always suffice (see `chunkSlices`). -/
def chunkSlicesAux : Nat → Bytes → List Bytes
  | 0, _ => []
  | n + 1, d =>
    if d = [] then [] else d.take chunkSize :: chunkSlicesAux n (d.drop chunkSize)

/-- The slices `data[pos:pos+chunk_size] for pos in range(0, size, chunk_size)`
produced by the chunking loop of `add_node`. -/
def chunkSlices (d : Bytes) : List Bytes := chunkSlicesAux d.length d

/-- Common head of `CidStore.add_node`: mint the node's hash (data hash for
data-carrying nodes, path hash otherwise), register it as a child of the
parent unless already present, and overwrite the index entry.  `data = []`
covers both Python `None` and `b''`, which are equally falsy in the source;
`time_stamp = some 0` falls back to `now` exactly as Python's
`if not time_stamp` does.  Returns the updated store, the minted hash and
the effective timestamp. -/
def addNodeCore (H : Bytes → String) (now : Int) (st : CidStore) (name : String)
    (parent : String) (node_type : Nat) (time_stamp : Option Int) (data : Bytes)
    (stored : Bool) (fuel : Nat) : Option (CidStore × String × Int) :=
  let ts : Int :=
    match time_stamp with
    | none => now
    | some t => if t = 0 then now else t
  let size := data.length
  let hashStored : Option (String × Bool) :=
    if data ≠ [] then
      (getDataHash H st.index fuel parent data (node_type ≠ 3)).map (fun hd => (hd, true))
    else
      (getPathHash H st.index fuel parent).map (fun hd => (hd, stored))
  match hashStored with
  | none => none
  | some (hd, stored1) =>
    match alookup st.index parent with
    | none => none
    | some pnode =>
      let pchildren :=
        if hd ∈ pnode.children then pnode.children else pnode.children ++ [hd]
      let idx1 := aset st.index parent { pnode with children := pchildren }
      let idx2 := aset idx1 hd (Cid.mk hd name ts size parent [] stored1 node_type)
      some ({ st with index := idx2 }, hd, ts)

/-- `add_node` as called recursively by the chunking loop: every such call
carries a non-empty CHUNK slice, so it can never re-enter the loop and ends
in the write-to-store branch; `addNode_chunk_eq` checks this against the
general `addNode`. -/
def addChunkNode (H : Bytes → String) (now : Int) (st : CidStore) (name : String)
    (parent : String) (time_stamp : Option Int) (data : Bytes) (stored : Bool)
    (fuel : Nat) : Option (CidStore × String) :=
  match addNodeCore H now st name parent 3 time_stamp data stored fuel with
  | none => none
  | some (st2, hd, _) =>
    if data.length ≠ 0 then some ({ st2 with fs := aset st2.fs hd data }, hd)
    else some (st2, hd)

/-- The chunking loop of `add_node`: one recursive `add_node` call per slice,
with names `{name}.chunk_{i}` and the freshly minted file hash as parent. -/
def addChunkList (H : Bytes → String) (now : Int) (st : CidStore) (name : String)
    (fileHash : String) (ts : Int) (slices : List Bytes) (i : Nat) (fuel : Nat) :
    Option CidStore :=
  match slices with
  | [] => some st
  | s :: rest =>
    match addChunkNode H now st (name ++ ".chunk_" ++ toString i) fileHash (some ts) s
        false fuel with
    | none => none
    | some (st1, _) => addChunkList H now st1 name fileHash ts rest (i + 1) fuel

/-- `CidStore.add_node`: the common head, then either split FILE data into
CHUNK children or write the bytes to the chunk store. -/
def addNode (H : Bytes → String) (now : Int) (st : CidStore) (name : String)
    (parent : String) (node_type : Nat) (time_stamp : Option Int) (data : Bytes)
    (stored : Bool) (fuel : Nat) : Option (CidStore × String) :=
  match addNodeCore H now st name parent node_type time_stamp data stored fuel with
  | none => none
  | some (st2, hd, ts) =>
    if data.length ≠ 0 ∧ node_type = 1 then
      (addChunkList H now st2 name hd ts (chunkSlices data) 0 fuel).map
        (fun st3 => (st3, hd))
    else if data.length ≠ 0 then
      some ({ st2 with fs := aset st2.fs hd data }, hd)
    else some (st2, hd)

/-- `CidStore.add_file`: parent defaults to the own source hash; refuses a
FILE or CHUNK parent and a parent not rooted at the own source (returning
Python `False`, modeled as a `none` hash); otherwise delegates to `add_node`
with type FILE.  The outer `none` marks an incomplete run (fuel). -/
def addFile (H : Bytes → String) (now : Int) (st : CidStore) (file_name : String)
    (data : Bytes) (parentOpt : Option String) (fuel : Nat) :
    Option (CidStore × Option String) :=
  let parent := parentOpt.getD st.sourceHash
  match alookup st.index parent with
  | none => some (st, none)
  | some pnode =>
    if pnode.type = 1 ∨ pnode.type = 3 then some (st, none)
    else
      match getParentHashes st.index fuel parent with
      | none => none
      | some ps =>
        if st.sourceHash ∉ ps ∧ st.sourceHash ≠ parent then some (st, none)
        else
          (addNode H now st file_name parent 1 none data false fuel).map
            (fun p => (p.1, some p.2))

mutual

/-- `CidStore.check_is_stored`: a CHUNK is stored iff its data file exists on
disk (the chunk store is keyed by hash); a non-CHUNK starts from `True`
(`False` for a FILE with no children) and conjoins the result for every
child, memoizing the outcome on the node's `is_stored` flag.  The recursion
carries no visited set, hence the fuel. -/
def checkIsStored (fs : FileStore) : Nat → Index → String → Option (Index × Bool)
  | 0, _, _ => none
  | fuel + 1, idx, h =>
    match alookup idx h with
    | none => some (idx, false)
    | some node =>
      if node.type ≠ 3 then
        let init : Bool := !(node.children.isEmpty && node.type == 1)
        match checkList fs fuel idx node.children init with
        | none => none
        | some (idx1, stored) =>
          some (aset idx1 h { node with is_stored := stored }, stored)
      else
        let stored := (alookup fs h).isSome
        some (aset idx h { node with is_stored := stored }, stored)
termination_by fuel _ _ => (fuel, 0)

/-- The children loop of `check_is_stored`: every child is visited (the
source does not short-circuit) and the flag is the conjunction. -/
def checkList (fs : FileStore) : Nat → Index → List String → Bool → Option (Index × Bool)
  | _, idx, [], acc => some (idx, acc)
  | fuel, idx, c :: cs, acc =>
    match checkIsStored fs fuel idx c with
    | none => none
    | some (idx1, cst) => checkList fs fuel idx1 cs (acc && cst)
termination_by fuel _ cs _ => (fuel, cs.length + 1)

end

mutual

/-- `CidStore.get_children`: pre-order list of all transitive children,
excluding the children of FILE nodes unless `includeChunks`.  No visited
set is carried. -/
def getChildren (includeChunks : Bool) : Nat → Index → String → Option (List String)
  | 0, _, _ => none
  | fuel + 1, idx, h =>
    match alookup idx h with
    | none => some []
    | some node =>
      if node.type ≠ 1 ∨ includeChunks = true then
        getChildrenList includeChunks fuel idx node.children
      else some []
termination_by fuel _ _ => (fuel, 0)

/-- The children loop of `get_children`: append the child, then its
recursive expansion. -/
def getChildrenList (includeChunks : Bool) : Nat → Index → List String → Option (List String)
  | _, _, [] => some []
  | fuel, idx, c :: cs =>
    match getChildren includeChunks fuel idx c with
    | none => none
    | some sub =>
      match getChildrenList includeChunks fuel idx cs with
      | none => none
      | some rest => some (c :: (sub ++ rest))
termination_by fuel _ cs => (fuel, cs.length + 1)

end

/-- Python `dict.update` on node dictionaries: existing keys are overwritten
in place, new keys are appended. -/
def dictUpdate (d : Index) : Index → Index
  | [] => d
  | (k, v) :: rest => dictUpdate (aset d k v) rest

mutual

/-- `CidStore.get_node_information`: serialize the subtree below a hash,
stopping at FILE children unless this is the initial request.  Each call
builds a fresh local dictionary seeded with the node itself (`node.dump()`
is modeled as the `Cid` record) and skips a child already present in that
local dictionary; the dictionary is not passed down the recursive calls. -/
def getNodeInformation : Nat → Index → String → Bool → Option Index
  | 0, _, _, _ => none
  | fuel + 1, idx, h, initial =>
    match alookup idx h with
    | none => some []
    | some node =>
      if node.type ≠ 1 ∨ initial = true then
        gniList fuel idx node.children [(h, node)]
      else some [(h, node)]
termination_by fuel _ _ _ => (fuel, 0)

/-- The children loop of `get_node_information`, accumulating the local
node dictionary via `dict.update`. -/
def gniList : Nat → Index → List String → Index → Option Index
  | _, _, [], d => some d
  | fuel, idx, c :: cs, d =>
    if (alookup d c).isSome then gniList fuel idx cs d
    else
      match getNodeInformation fuel idx c false with
      | none => none
      | some cd => gniList fuel idx cs (dictUpdate d cd)
termination_by fuel _ cs _ => (fuel, cs.length + 1)

end

/-- `CidStore.add_node_dict`: insert each decoded node whose hash is not yet
in the index (`cid_builder` forces `is_stored := False` and drops malformed
entries before this loop), then refresh its storage flag via
`check_is_stored`.  The update callback and the final `save_index` are
external side effects. -/
def addNodeDict (st : CidStore) (fuel : Nat) : List Cid → Option CidStore
  | [] => some st
  | cid :: rest =>
    if (alookup st.index cid.hash).isSome then addNodeDict st fuel rest
    else
      let idx1 := aset st.index cid.hash { cid with is_stored := false }
      match checkIsStored st.fs fuel idx1 cid.hash with
      | none => none
      | some (idx2, _) => addNodeDict { st with index := idx2 } fuel rest

/-- `CidStore.add_data`: ingestion of a fetched payload.  For a known CHUNK
with a non-empty ancestor chain, bytes that re-hash (without parent salt) to
the declared hash are re-added with data; on mismatch only a warning is
logged and nothing changes.  A known non-CHUNK whose chain does not start at
the own source hash, and any unknown or chainless hash, is decoded as a node
dictionary (`decoder` stands for `json.loads` plus `cid_builder`; a decode
exception is an incomplete run). -/
def addData (decoder : Bytes → Option (List Cid)) (H : Bytes → String) (now : Int)
    (st : CidStore) (h : String) (data : Bytes) (fuel : Nat) : Option CidStore :=
  match alookup st.index h with
  | some node =>
    match getParentHashes st.index fuel h with
    | none => none
    | some sourceChain =>
      if sourceChain ≠ [] then
        if node.type = 3 then
          if getDataHash H st.index fuel node.parent data false = some h then
            (addNode H now st node.name node.parent node.type (some node.time_stamp)
              data true fuel).map Prod.fst
          else some st
        else if sourceChain.head? ≠ some st.sourceHash then
          (decoder data).bind (fun cids => addNodeDict st fuel cids)
        else some st
      else (decoder data).bind (fun cids => addNodeDict st fuel cids)
  | none => (decoder data).bind (fun cids => addNodeDict st fuel cids)

/-- An entry of `desired_hash_translation_map`:
`(sources, attempts, next_allowed_time)`. -/
structure DEntry where
  sources : List String
  attempts : Nat
  nextTime : Int
deriving DecidableEq, Repr

/-- The desired-hash table of the replication engine. -/
abbrev Desired := List (String × DEntry)

/-- `request_id_to_hash`: outstanding point-to-point fetches. -/
abbrev ReqMap := List (Nat × String)

/-- `RNSInterface.make_hash_desire_request`: broadcast an RH frame (an
external side effect) and insert a fresh desired entry unless the hash is
already tracked. -/
def makeHashDesireRequest (now : Int) (m : Desired) (h : String) : Desired :=
  if (alookup m h).isSome then m
  else aset m h ⟨[], 0, now + 60⟩

/-- `RNSInterface.got_response_data`: resolve the request id to its hash;
a non-empty response is ingested and both the request map entry and the
desired entry are popped (`dict.pop` raises on a missing key, hence the
`none`).  The link teardown is external. -/
def gotResponseData (decoder : Bytes → Option (List Cid)) (H : Bytes → String)
    (now : Int) (st : CidStore) (desired : Desired) (reqMap : ReqMap) (reqId : Nat)
    (response : Bytes) (fuel : Nat) : Option (CidStore × Desired × ReqMap) :=
  match alookup reqMap reqId with
  | none => none
  | some h =>
    if response ≠ [] then
      match addData decoder H now st h response fuel with
      | none => none
      | some st1 =>
        match alookup desired h with
        | none => none
        | some _ => some (st1, aerase desired h, aerase reqMap reqId)
    else some (st, desired, reqMap)

/-- The `for` loop of one `service_desired_hash_list` tick, threading the
`made_request` flag exactly as the source does: the source initializes it to
`False` and never assigns it again, so the first branch is taken for every
key and the removal branch is unreachable.  When `sources` is non-empty its
head is rotated to the back and a fetch is initiated (external); otherwise,
once `now` passes `nextTime`, `make_hash_desire_request` re-broadcasts,
which never changes the map for a key it already contains.  A key missing
from the live map would raise a `KeyError` in the source; that point is
unreachable from `serviceTick` and modeled as a skip. -/
def serviceLoop (now : Int) : Desired → List String → Bool → Desired
  | m, [], _ => m
  | m, h :: rest, made =>
    match alookup m h with
    | none => serviceLoop now m rest made
    | some e =>
      if made = false then
        let sources1 :=
          match e.sources with
          | [] => []
          | s :: ss => ss ++ [s]
        serviceLoop now (aset m h ⟨sources1, e.attempts + 1, now + 60⟩) rest made
      else if e.attempts > 5 then serviceLoop now (aerase m h) rest made
      else serviceLoop now m rest made

/-- One tick of the `service_desired_hash_list` scheduler: iterate over a
snapshot of the keys with `made_request = False`; `max_allowed_attempts = 5`. -/
def serviceTick (now : Int) (m : Desired) : Desired :=
  serviceLoop now m (m.map Prod.fst) false

mutual

/-- `CidStore.remove_hash`: refuse SRC deletion; otherwise pop the hash and
sweep orphans via `clean_data`.  `Except.error` carries the state at an
uncaught `FileNotFoundError` escaping from the sweep; the `Bool` is the
method's return value. -/
def removeHash : Nat → CidStore → String → Option (Except CidStore (CidStore × Bool))
  | 0, _, _ => none
  | fuel + 1, st, h =>
    match alookup st.index h with
    | none => some (Except.ok (st, false))
    | some node =>
      if node.type ≠ 0 then
        let st1 : CidStore := { st with index := aerase st.index h }
        match cleanData fuel st1 with
        | none => none
        | some (Except.error st2) => some (Except.error st2)
        | some (Except.ok st2) => some (Except.ok (st2, true))
      else some (Except.ok (st, false))
termination_by fuel _ _ => fuel

/-- `CidStore.clean_data`: sweep over a snapshot of the index keys. -/
def cleanData : Nat → CidStore → Option (Except CidStore CidStore)
  | 0, _ => none
  | fuel + 1, st => cleanLoop fuel st (st.index.map Prod.fst)
termination_by fuel _ => fuel

/-- The body of `clean_data`'s loop: a node whose parent has vanished and
which is not a SRC is removed (recursively re-sweeping); for an orphaned
CHUNK, `os.remove` deletes its data file first and raises an uncaught
`FileNotFoundError` when the file does not exist, carried as `Except.error`
with the state at the raise. -/
def cleanLoop : Nat → CidStore → List String → Option (Except CidStore CidStore)
  | _, st, [] => some (Except.ok st)
  | 0, _, _ :: _ => none
  | fuel + 1, st, k :: ks =>
    match alookup st.index k with
    | none => cleanLoop fuel st ks
    | some node =>
      if alookup st.index node.parent = none ∧ node.type ≠ 0 then
        if node.type = 3 then
          match alookup st.fs k with
          | none => some (Except.error st)
          | some _ =>
            let st1 : CidStore := { st with fs := aerase st.fs k }
            match removeHash fuel st1 k with
            | none => none
            | some (Except.error st2) => some (Except.error st2)
            | some (Except.ok (st2, _)) => cleanLoop fuel st2 ks
        else
          match removeHash fuel st k with
          | none => none
          | some (Except.error st2) => some (Except.error st2)
          | some (Except.ok (st2, _)) => cleanLoop fuel st2 ks
      else cleanLoop fuel st ks
termination_by fuel _ _ => fuel

end

/-- Concrete stand-in for the SHA-224 hex digest, used to evaluate the model
on explicit inputs: an injective readable encoding of the byte list. -/
def encHash (l : Bytes) : String :=
  "#" ++ String.intercalate "." (l.map toString)

/-! Specification-side definitions, written from the spec's words, to be
compared with the functions embedded from the source. -/

/-- `Reaches idx h d`: node `d` is among the transitive descendants of `h`
(including `h` itself), following the `children` references of nodes present
in the index that are not CHUNKs — the traversal rule of `check_is_stored`. -/
inductive Reaches (idx : Index) : String → String → Prop
  | refl (h : String) : Reaches idx h h
  | step {h c d : String} (n : Cid) : alookup idx h = some n → n.type ≠ 3 →
      c ∈ n.children → Reaches idx c d → Reaches idx h d

/-- The spec's storage-closure predicate for `check_is_stored` as the code
realizes it: every reached node is present in the index, every reached CHUNK
has its data file on disk, and no reached FILE has an empty child list. -/
def storedSpec (idx : Index) (fs : FileStore) (h : String) : Prop :=
  ∀ d, Reaches idx h d →
    ∃ n, alookup idx d = some n ∧
      (n.type = 3 → (alookup fs d).isSome = true) ∧
      (n.type = 1 → n.children ≠ [])

/-- An index is ranked when some measure strictly decreases from every node
to each of its children: the acyclicity certificate used for termination. -/
def Ranked (idx : Index) (r : String → Nat) : Prop :=
  ∀ h n, alookup idx h = some n → ∀ c ∈ n.children, r c < r h

/-- A node with its memoized storage flag cleared: `check_is_stored` only
ever rewrites this field. -/
def stripStored (n : Cid) : Cid := { n with is_stored := false }

/-- Two indexes agree on everything except the memoized `is_stored` flags. -/
def sameShape (idx idx1 : Index) : Prop :=
  ∀ k, (alookup idx1 k).map stripStored = (alookup idx k).map stripStored

/-- `get_children` never completes on this index, whatever the recursion
budget: the Python original recurses without bound. -/
def getChildrenDiverges (includeChunks : Bool) (idx : Index) (h : String) : Prop :=
  ∀ fuel, getChildren includeChunks fuel idx h = none

/-- `check_is_stored` never completes on this index. -/
def checkIsStoredDiverges (fs : FileStore) (idx : Index) (h : String) : Prop :=
  ∀ fuel, checkIsStored fs fuel idx h = none

/-- `get_node_information` never completes on this index. -/
def gniDiverges (idx : Index) (h : String) (initial : Bool) : Prop :=
  ∀ fuel, getNodeInformation fuel idx h initial = none

/-- Read each listed hash from the chunk store, failing if any is absent. -/
def collectBytes (f : String → Option Bytes) : List String → Option (List Bytes)
  | [] => some []
  | c :: cs =>
    match f c, collectBytes f cs with
    | some b, some rest => some (b :: rest)
    | _, _ => none

/-- Reassembly of a FILE from the chunk store: the concatenation of the raw
bytes on disk of every child of the node, in child order. -/
def chunkConcat (st : CidStore) (h : String) : Option Bytes :=
  (alookup st.index h).bind
    (fun n => (collectBytes (alookup st.fs) n.children).map List.flatten)

/-! Concrete fixtures for witnesses and counterexamples (one family per
claim, so each stands alone). -/

/-- A minimal store holding only its own SRC node, for the C1 scenario. -/
def c1Store : CidStore :=
  ⟨"s", [("s", ⟨"s", "src", 1, 0, "root", [], true, 0⟩)], []⟩

/-- A minimal store holding only its own SRC node, for the C7 scenario. -/
def c7Store : CidStore :=
  ⟨"s", [("s", ⟨"s", "src", 1, 0, "root", [], true, 0⟩)], []⟩

/-- The store produced by uploading the three bytes `[1,2,3]` as file `f`
under the SRC of `c1Store` at time 99, with `encHash` as the digest. -/
def c1OutStore : CidStore :=
  ⟨"s", [("s", ⟨"s", "src", 1, 0, "root", ["#35.49.49.53.1.2.3"], true, 0⟩),
         ("#35.49.49.53.1.2.3",
          ⟨"#35.49.49.53.1.2.3", "f", 99, 3, "s", ["#1.2.3"], true, 1⟩),
         ("#1.2.3", ⟨"#1.2.3", "f.chunk_0", 99, 3, "#35.49.49.53.1.2.3", [], true, 3⟩)],
   [("#1.2.3", [1, 2, 3])]⟩

/-- Peer-ingested metadata for the C3 scenario: SRC `w`, FILE `wf`, CHUNK
`wc`; the chunk bytes were never fetched. -/
def c3Store : CidStore :=
  ⟨"me", [("w", ⟨"w", "peer", 1, 0, "root", ["wf"], false, 0⟩),
          ("wf", ⟨"wf", "a.txt", 1, 2, "w", ["wc"], false, 1⟩),
          ("wc", ⟨"wc", "a.txt.chunk_0", 1, 2, "wf", [], false, 3⟩)], []⟩

/-- Index for the C4 counterexample: a single CHUNK whose data file exists
but holds bytes that do not re-hash to the chunk's hash. -/
def c4BadIdx : Index := [("kc", ⟨"kc", "k", 1, 2, "kp", [], false, 3⟩)]

/-- The chunk store for the C4 counterexample: wrong bytes under `kc`. -/
def c4BadFs : FileStore := [("kc", [9, 9])]

/-- Index for the C4 witness: SRC `v` with FILE `vf` whose only CHUNK `vc`
has no data file on disk. -/
def c4WIdx : Index :=
  [("v", ⟨"v", "src", 1, 0, "root", ["vf"], false, 0⟩),
   ("vf", ⟨"vf", "b.txt", 1, 2, "v", ["vc"], false, 1⟩),
   ("vc", ⟨"vc", "b.txt.chunk_0", 1, 2, "vf", [], false, 3⟩)]

/-- A two-node cycle in the `children` references, as peer ingestion can
deliver: each of `ca`, `cb` lists the other as its child. -/
def cycleIdx : Index :=
  [("ca", ⟨"ca", "a", 1, 0, "cb", ["cb"], false, 2⟩),
   ("cb", ⟨"cb", "b", 1, 0, "ca", ["ca"], false, 2⟩)]

/-- An acyclic three-node index (SRC, DIR, CHUNK) with its rank, for the C6
witness. -/
def c6WIdx : Index :=
  [("u", ⟨"u", "src", 1, 0, "root", ["ud"], false, 0⟩),
   ("ud", ⟨"ud", "dir", 1, 0, "u", ["uc"], false, 2⟩),
   ("uc", ⟨"uc", "c", 1, 2, "ud", [], false, 3⟩)]

/-- Rank function witnessing that `c6WIdx` is acyclic. -/
def c6Rank (h : String) : Nat :=
  if h = "u" then 2 else if h = "ud" then 1 else 0

/-- Store for the C9 witness: own SRC `s`, FILE `f`, CHUNK `c`, empty disk. -/
def c9Store : CidStore :=
  ⟨"s", [("s", ⟨"s", "src", 1, 0, "root", ["f"], true, 0⟩),
         ("f", ⟨"f", "d.txt", 1, 3, "s", ["c"], false, 1⟩),
         ("c", ⟨"c", "d.txt.chunk_0", 1, 3, "f", [], false, 3⟩)], []⟩

/-- Store for the C10 witness: own SRC `s` with a DIR `d` below it. -/
def c10Store : CidStore :=
  ⟨"s", [("s", ⟨"s", "src", 1, 0, "root", ["d"], true, 0⟩),
         ("d", ⟨"d", "docs", 1, 0, "s", [], true, 2⟩)], []⟩

/-! General lemmas about the association-list dictionaries. -/

theorem alookup_isSome_iff {κ α : Type} [DecidableEq κ] (l : List (κ × α)) (k : κ) :
    (alookup l k).isSome = true ↔ k ∈ l.map Prod.fst := by
  induction l with
  | nil => simp [alookup]
  | cons p rest ih =>
    obtain ⟨k1, v1⟩ := p
    by_cases hk : k1 = k
    · subst hk; simp [alookup]
    · simp [alookup, hk, ih, Ne.symm hk]

theorem alookup_eq_none_iff {κ α : Type} [DecidableEq κ] (l : List (κ × α)) (k : κ) :
    alookup l k = none ↔ k ∉ l.map Prod.fst := by
  rw [← alookup_isSome_iff]
  cases alookup l k <;> simp

theorem aset_keys {κ α : Type} [DecidableEq κ] (l : List (κ × α)) (k : κ) (v : α)
    (hk : (alookup l k).isSome = true) :
    (aset l k v).map Prod.fst = l.map Prod.fst := by
  induction l with
  | nil => simp [alookup] at hk
  | cons p rest ih =>
    obtain ⟨k1, v1⟩ := p
    by_cases hkk : k1 = k
    · simp [aset, hkk]
    · simp only [alookup, hkk, if_false] at hk
      simp [aset, hkk, ih hk]

theorem aset_of_none {κ α : Type} [DecidableEq κ] (l : List (κ × α)) (k : κ) (v : α)
    (hk : alookup l k = none) : aset l k v = l ++ [(k, v)] := by
  induction l with
  | nil => rfl
  | cons p rest ih =>
    obtain ⟨k1, v1⟩ := p
    by_cases hkk : k1 = k
    · simp [alookup, hkk] at hk
    · simp only [alookup, hkk, if_false] at hk
      simp [aset, hkk, ih hk]

theorem alookup_aerase {κ α : Type} [DecidableEq κ] (l : List (κ × α)) (k : κ) :
    alookup (aerase l k) k = none := by
  induction l with
  | nil => rfl
  | cons p rest ih =>
    obtain ⟨k1, v1⟩ := p
    by_cases hk : k1 = k
    · simpa [aerase, hk] using ih
    · simpa [aerase, List.filter, hk, alookup] using ih

theorem alookup_mem {κ α : Type} [DecidableEq κ] {l : List (κ × α)} {k : κ} {v : α}
    (h : alookup l k = some v) : (k, v) ∈ l := by
  induction l with
  | nil => simp [alookup] at h
  | cons p rest ih =>
    obtain ⟨k1, v1⟩ := p
    by_cases hk : k1 = k
    · subst hk
      simp [alookup] at h
      simp [h]
    · simp only [alookup, hk, if_false] at h
      exact List.mem_cons_of_mem _ (ih h)

theorem alookup_aset_self {κ α : Type} [DecidableEq κ] (l : List (κ × α)) (k : κ)
    (v : α) : alookup (aset l k v) k = some v := by
  induction l with
  | nil => simp [aset, alookup]
  | cons p rest ih =>
    obtain ⟨k2, v2⟩ := p
    by_cases h2 : k2 = k
    · simp [aset, h2, alookup]
    · simp [aset, h2, alookup, ih]

theorem alookup_aset_ne {κ α : Type} [DecidableEq κ] (l : List (κ × α)) {k k1 : κ}
    (v : α) (h : ¬k1 = k) : alookup (aset l k v) k1 = alookup l k1 := by
  have hs : ¬k = k1 := fun hh => h hh.symm
  induction l with
  | nil => simp [aset, alookup, hs]
  | cons p rest ih =>
    obtain ⟨k2, v2⟩ := p
    by_cases h2 : k2 = k
    · subst h2
      simp [aset, alookup, hs, h]
    · by_cases h1 : k2 = k1
      · simp [aset, alookup, h2, h1, h]
      · simp [aset, alookup, h2, h1, ih]

/-! Shape preservation: `check_is_stored` only rewrites `is_stored` flags. -/

theorem stripStored_fields {a b : Cid} (h : stripStored a = stripStored b) :
    a.children = b.children ∧ a.type = b.type := by
  constructor
  · have hc := congrArg Cid.children h
    simpa [stripStored] using hc
  · have ht := congrArg Cid.type h
    simpa [stripStored] using ht

theorem sameShape_refl (idx : Index) : sameShape idx idx := fun _ => rfl

theorem sameShape_symm {idx idx1 : Index} (h : sameShape idx idx1) :
    sameShape idx1 idx := fun k => (h k).symm

theorem sameShape_trans {idx idx1 idx2 : Index} (h1 : sameShape idx idx1)
    (h2 : sameShape idx1 idx2) : sameShape idx idx2 :=
  fun k => (h2 k).trans (h1 k)

theorem sameShape_lookup {idx idx1 : Index} (hs : sameShape idx idx1) {h : String}
    {n : Cid} (hn : alookup idx h = some n) :
    ∃ n1, alookup idx1 h = some n1 ∧ n1.children = n.children ∧ n1.type = n.type := by
  have hk := hs h
  rw [hn] at hk
  cases hl : alookup idx1 h with
  | none => rw [hl] at hk; simp at hk
  | some n1 =>
    rw [hl] at hk
    simp only [Option.map_some', Option.some.injEq] at hk
    exact ⟨n1, rfl, stripStored_fields hk⟩

theorem sameShape_aset {idx idx1 : Index} (hs : sameShape idx idx1)
    {h : String} {node : Cid} (hn : alookup idx h = some node) (b : Bool) :
    sameShape idx (aset idx1 h { node with is_stored := b }) := by
  intro k
  by_cases hk : k = h
  · subst hk
    rw [alookup_aset_self, hn]
    rfl
  · rw [alookup_aset_ne _ _ hk]
    exact hs k

theorem cis_shape_aux (fs : FileStore) : ∀ fuel : Nat,
    (∀ idx h res, checkIsStored fs fuel idx h = some res → sameShape idx res.1)
    ∧ (∀ idx cs acc res, checkList fs fuel idx cs acc = some res → sameShape idx res.1) := by
  intro fuel
  induction fuel with
  | zero =>
    constructor
    · intro idx h res hrun
      simp [checkIsStored] at hrun
    · intro idx cs acc res hrun
      cases cs with
      | nil =>
        simp only [checkList, Option.some.injEq] at hrun
        rw [← hrun]
        exact sameShape_refl idx
      | cons c cs => simp [checkList, checkIsStored] at hrun
  | succ n ih =>
    have hP : ∀ idx h res, checkIsStored fs (n + 1) idx h = some res → sameShape idx res.1 := by
      intro idx h res hrun
      cases hl : alookup idx h with
      | none =>
        simp only [checkIsStored, hl, Option.some.injEq] at hrun
        rw [← hrun]
        exact sameShape_refl idx
      | some node =>
        simp only [checkIsStored, hl] at hrun
        by_cases hty : node.type ≠ 3
        · rw [if_pos hty] at hrun
          cases hcl : checkList fs n idx node.children
              (!(node.children.isEmpty && node.type == 1)) with
          | none => rw [hcl] at hrun; exact absurd hrun (by simp)
          | some res1 =>
            obtain ⟨idx1, stored⟩ := res1
            rw [hcl] at hrun
            simp only [Option.some.injEq] at hrun
            rw [← hrun]
            exact sameShape_aset (ih.2 idx node.children _ (idx1, stored) hcl) hl stored
        · rw [if_neg hty] at hrun
          simp only [Option.some.injEq] at hrun
          rw [← hrun]
          exact sameShape_aset (sameShape_refl idx) hl _
    refine ⟨hP, ?_⟩
    intro idx cs
    induction cs generalizing idx with
    | nil =>
      intro acc res hrun
      simp only [checkList, Option.some.injEq] at hrun
      rw [← hrun]
      exact sameShape_refl idx
    | cons c cs ihc =>
      intro acc res hrun
      cases hc : checkIsStored fs (n + 1) idx c with
      | none => simp [checkList, hc] at hrun
      | some res1 =>
        obtain ⟨idx1, cst⟩ := res1
        simp only [checkList, hc] at hrun
        exact sameShape_trans (hP idx c (idx1, cst) hc) (ihc idx1 (acc && cst) res hrun)

/-- Bridge from the (decidable) per-entry statement of rank to `Ranked`. -/
theorem ranked_of_list (idx : Index) (r : String → Nat)
    (hl : ∀ p ∈ idx, ∀ c ∈ p.2.children, r c < r p.1) : Ranked idx r :=
  fun h n hn c hc => hl (h, n) (alookup_mem hn) c hc

/-! Totality of the three traversals on ranked (acyclic) indexes. -/

theorem gc_total_aux (idx : Index) (r : String → Nat) (hr : Ranked idx r)
    (inc : Bool) : ∀ fuel : Nat,
    (∀ h, r h < fuel → (getChildren inc fuel idx h).isSome = true)
    ∧ (∀ cs, (∀ c ∈ cs, r c < fuel) → (getChildrenList inc fuel idx cs).isSome = true) := by
  intro fuel
  induction fuel with
  | zero =>
    refine ⟨fun h hh => absurd hh (by omega), fun cs hcs => ?_⟩
    cases cs with
    | nil => simp [getChildrenList]
    | cons c cs => exact absurd (hcs c (by simp)) (by omega)
  | succ n ih =>
    have hP : ∀ h, r h < n + 1 → (getChildren inc (n + 1) idx h).isSome = true := by
      intro h hh
      cases hl : alookup idx h with
      | none => simp [getChildren, hl]
      | some node =>
        by_cases hty : node.type ≠ 1 ∨ inc = true
        · have hch : ∀ c ∈ node.children, r c < n := fun c hc =>
            lt_of_lt_of_le (hr h node hl c hc) (Nat.lt_succ_iff.mp hh)
          have hsome := ih.2 node.children hch
          simpa [getChildren, hl, hty] using hsome
        · simp [getChildren, hl, hty]
    refine ⟨hP, ?_⟩
    intro cs
    induction cs with
    | nil => intro _; simp [getChildrenList]
    | cons c cs ihc =>
      intro hcs
      have h1 := hP c (hcs c (by simp))
      cases hgc : getChildren inc (n + 1) idx c with
      | none => rw [hgc] at h1; simp at h1
      | some sub =>
        have h2 := ihc (fun x hx => hcs x (by simp [hx]))
        cases hgl : getChildrenList inc (n + 1) idx cs with
        | none => rw [hgl] at h2; simp at h2
        | some rest => simp [getChildrenList, hgc, hgl]

theorem gni_total_aux (idx : Index) (r : String → Nat) (hr : Ranked idx r) :
    ∀ fuel : Nat,
    (∀ h initial, r h < fuel → (getNodeInformation fuel idx h initial).isSome = true)
    ∧ (∀ cs d, (∀ c ∈ cs, r c < fuel) → (gniList fuel idx cs d).isSome = true) := by
  intro fuel
  induction fuel with
  | zero =>
    refine ⟨fun h initial hh => absurd hh (by omega), fun cs d hcs => ?_⟩
    cases cs with
    | nil => simp [gniList]
    | cons c cs => exact absurd (hcs c (by simp)) (by omega)
  | succ n ih =>
    have hP : ∀ h initial, r h < n + 1 →
        (getNodeInformation (n + 1) idx h initial).isSome = true := by
      intro h initial hh
      cases hl : alookup idx h with
      | none => simp [getNodeInformation, hl]
      | some node =>
        by_cases hty : node.type ≠ 1 ∨ initial = true
        · have hch : ∀ c ∈ node.children, r c < n := fun c hc =>
            lt_of_lt_of_le (hr h node hl c hc) (Nat.lt_succ_iff.mp hh)
          have hsome := ih.2 node.children [(h, node)] hch
          simpa [getNodeInformation, hl, hty] using hsome
        · simp [getNodeInformation, hl, hty]
    refine ⟨hP, ?_⟩
    intro cs
    induction cs with
    | nil => intro d _; simp [gniList]
    | cons c cs ihc =>
      intro d hcs
      by_cases hd : (alookup d c).isSome = true
      · have h2 := ihc d (fun x hx => hcs x (by simp [hx]))
        simpa [gniList, hd] using h2
      · have h1 := hP c false (hcs c (by simp))
        cases hg : getNodeInformation (n + 1) idx c false with
        | none => rw [hg] at h1; simp at h1
        | some cd =>
          have h2 := ihc (dictUpdate d cd) (fun x hx => hcs x (by simp [hx]))
          simpa [gniList, hd, hg] using h2

theorem cis_total_aux (fs : FileStore) (idx : Index) (r : String → Nat)
    (hr : Ranked idx r) : ∀ fuel : Nat,
    (∀ idx1 h, sameShape idx idx1 → r h < fuel →
      (checkIsStored fs fuel idx1 h).isSome = true)
    ∧ (∀ idx1 cs acc, sameShape idx idx1 → (∀ c ∈ cs, r c < fuel) →
      (checkList fs fuel idx1 cs acc).isSome = true) := by
  intro fuel
  induction fuel with
  | zero =>
    refine ⟨fun idx1 h _ hh => absurd hh (by omega), fun idx1 cs acc _ hcs => ?_⟩
    cases cs with
    | nil => simp [checkList]
    | cons c cs => exact absurd (hcs c (by simp)) (by omega)
  | succ n ih =>
    have hP : ∀ idx1 h, sameShape idx idx1 → r h < n + 1 →
        (checkIsStored fs (n + 1) idx1 h).isSome = true := by
      intro idx1 h hs hh
      cases hl : alookup idx1 h with
      | none => simp [checkIsStored, hl]
      | some node =>
        by_cases hty : node.type ≠ 3
        · obtain ⟨n0, hl0, hch0, -⟩ := sameShape_lookup (sameShape_symm hs)
            (n := node) hl
          have hch : ∀ c ∈ node.children, r c < n := by
            intro c hc
            rw [← hch0] at hc
            exact lt_of_lt_of_le (hr h n0 hl0 c hc) (Nat.lt_succ_iff.mp hh)
          have hsome := ih.2 idx1 node.children
            (!(node.children.isEmpty && node.type == 1)) hs hch
          cases hcl : checkList fs n idx1 node.children
              (!(node.children.isEmpty && node.type == 1)) with
          | none => rw [hcl] at hsome; simp at hsome
          | some res1 =>
            obtain ⟨idx2, stored⟩ := res1
            simp only [checkIsStored, hl]
            rw [if_pos hty, hcl]
            simp
        · simp only [checkIsStored, hl]
          rw [if_neg hty]
          simp
    refine ⟨hP, ?_⟩
    intro idx1 cs
    induction cs generalizing idx1 with
    | nil => intro acc _ _; simp [checkList]
    | cons c cs ihc =>
      intro acc hs hcs
      have h1 := hP idx1 c hs (hcs c (by simp))
      cases hc : checkIsStored fs (n + 1) idx1 c with
      | none => rw [hc] at h1; simp at h1
      | some res1 =>
        obtain ⟨idx2, cst⟩ := res1
        have hs2 : sameShape idx idx2 :=
          sameShape_trans hs ((cis_shape_aux fs (n + 1)).1 idx1 c (idx2, cst) hc)
        have h2 := ihc idx2 (acc && cst) hs2 (fun x hx => hcs x (by simp [hx]))
        simpa [checkList, hc] using h2

/-! Divergence of the traversals on the two-node cycle. -/

theorem cyc_gc : ∀ fuel : Nat,
    getChildren false fuel cycleIdx "ca" = none
    ∧ getChildren false fuel cycleIdx "cb" = none := by
  intro fuel
  induction fuel with
  | zero => constructor <;> simp [getChildren]
  | succ n ih =>
    obtain ⟨h1, h2⟩ := ih
    simp only [cycleIdx] at h1 h2
    refine ⟨?_, ?_⟩
    · simp [getChildren, getChildrenList, cycleIdx, alookup, h2]
    · simp [getChildren, getChildrenList, cycleIdx, alookup, h1]

theorem cyc_cis (fs : FileStore) : ∀ fuel : Nat,
    checkIsStored fs fuel cycleIdx "ca" = none
    ∧ checkIsStored fs fuel cycleIdx "cb" = none := by
  intro fuel
  induction fuel with
  | zero => constructor <;> simp [checkIsStored]
  | succ n ih =>
    obtain ⟨h1, h2⟩ := ih
    simp only [cycleIdx] at h1 h2
    refine ⟨?_, ?_⟩
    · simp [checkIsStored, checkList, cycleIdx, alookup, h2]
    · simp [checkIsStored, checkList, cycleIdx, alookup, h1]

theorem cyc_gni : ∀ fuel : Nat,
    (∀ initial, getNodeInformation fuel cycleIdx "ca" initial = none)
    ∧ (∀ initial, getNodeInformation fuel cycleIdx "cb" initial = none) := by
  intro fuel
  induction fuel with
  | zero => constructor <;> intro initial <;> simp [getNodeInformation]
  | succ n ih =>
    have h1 := ih.1 false
    have h2 := ih.2 false
    simp only [cycleIdx] at h1 h2
    refine ⟨fun initial => ?_, fun initial => ?_⟩
    · simp [getNodeInformation, gniList, cycleIdx, alookup, h2]
    · simp [getNodeInformation, gniList, cycleIdx, alookup, h1]

/-! Claim C6.  Only `get_node_information` keeps any visited record, and its
per-call dictionary is not passed down the recursion: on a two-node cycle
all three traversals recurse forever (`get_node_information` survives only
self-loops).  On acyclic indexes — certified by a rank decreasing from
parent to child — all three terminate. -/

/-- Claim C6 counterexample: on the two-node `children` cycle `ca ↔ cb`,
`get_children`, `check_is_stored` and `get_node_information` all fail to
complete whatever the recursion budget — none of them carries a visited set
down the recursion. -/
theorem c6_counterexample :
    getChildrenDiverges false cycleIdx "ca"
    ∧ checkIsStoredDiverges [] cycleIdx "ca"
    ∧ gniDiverges cycleIdx "ca" true :=
  ⟨fun fuel => (cyc_gc fuel).1,
   fun fuel => (cyc_cis [] fuel).1,
   fun fuel => (cyc_gni fuel).1 true⟩

/-- Claim C6 (amended): on every index admitting a rank that strictly
decreases from each node to its children (an acyclicity certificate), all
three traversals terminate once the recursion depth exceeds the rank of the
starting hash — for every chunk store, `include_chunks` mode and `initial`
flag. -/
theorem c6_traversals_terminate_on_acyclic (idx : Index) (r : String → Nat)
    (hr : Ranked idx r) (h : String) (fuel : Nat) (hfuel : r h < fuel) :
    (∀ fs, (checkIsStored fs fuel idx h).isSome = true)
    ∧ (∀ inc, (getChildren inc fuel idx h).isSome = true)
    ∧ (∀ initial, (getNodeInformation fuel idx h initial).isSome = true) :=
  ⟨fun fs => (cis_total_aux fs idx r hr fuel).1 idx h (sameShape_refl idx) hfuel,
   fun inc => (gc_total_aux idx r hr inc fuel).1 h hfuel,
   fun initial => (gni_total_aux idx r hr fuel).1 h initial hfuel⟩

/-- Claim C6 witness: the acyclic index `c6WIdx` with rank `c6Rank`; all
three traversals complete from its SRC `u` with budget 5. -/
theorem c6_witness :
    Ranked c6WIdx c6Rank
    ∧ ((∀ fs, (checkIsStored fs 5 c6WIdx "u").isSome = true)
       ∧ (∀ inc, (getChildren inc 5 c6WIdx "u").isSome = true)
       ∧ (∀ initial, (getNodeInformation 5 c6WIdx "u" initial).isSome = true)) :=
  have hrk : Ranked c6WIdx c6Rank := ranked_of_list _ _ (by decide)
  ⟨hrk, c6_traversals_terminate_on_acyclic c6WIdx c6Rank hrk "u" 5 (by decide)⟩

/-! Claim C2.  `add_node` mints a chunk hash via
`get_data_hash(parent, bytes, include_source=False)`, and with
`include_source=False` the parent argument is never mixed into the digest:
the claim that distinct parents salt the chunk hash fails. -/

/-- Claim C2 counterexample: the chunk hash minted for the bytes `[7]` under
parent `"p1"` equals the one minted under the distinct parent `"p2"`. -/
theorem c2_counterexample :
    getDataHash encHash [] 5 "p1" [7] false = getDataHash encHash [] 5 "p2" [7] false
      ∧ "p1" ≠ "p2" := by
  exact ⟨rfl, by decide⟩

/-- Claim C2 (amended): the chunk hash is a function of the raw bytes alone —
`get_data_hash` with `include_source=False` (the minting mode `add_node` uses
for CHUNKs) returns the same digest under any two parents, over any index. -/
theorem c2_chunk_hash_parent_independent (H : Bytes → String) (idx1 idx2 : Index)
    (fuel1 fuel2 : Nat) (p1 p2 : String) (b : Bytes) :
    getDataHash H idx1 fuel1 p1 b false = getDataHash H idx2 fuel2 p2 b false := rfl

/-! Claim C5.  In `service_desired_hash_list` the `made_request` flag is
initialized `False` and never assigned again, so `if not made_request` is
taken for every entry and the `elif attempts > max_allowed_attempts` removal
branch is unreachable: an entry over the attempt limit is re-actioned
forever instead of being removed. -/

/-- Claim C5 (code behavior at the failing input): a desired entry with
`attempts = 6 > 5` survives the tick — it is re-actioned with `attempts = 7`
and a fresh next-try time — and, in general, a tick never removes any key. -/
theorem c5_over_limit_entry_survives :
    serviceTick 100 [("h", ⟨[], 6, 0⟩)] = [("h", ⟨[], 7, 160⟩)]
      ∧ ∀ now m, (serviceTick now m).map Prod.fst = m.map Prod.fst := by
  refine ⟨rfl, fun now m => ?_⟩
  suffices hgen : ∀ (ks : List String) (m1 : Desired),
      (serviceLoop now m1 ks false).map Prod.fst = m1.map Prod.fst by
    exact hgen _ m
  intro ks
  induction ks with
  | nil => intro m1; rfl
  | cons h rest ih =>
    intro m1
    cases hl : alookup m1 h with
    | none => simpa [serviceLoop, hl] using ih m1
    | some e =>
      simp only [serviceLoop, hl, if_true]
      rw [ih]
      exact aset_keys m1 h _ (by simp [hl])

/-! Claim C8.  `make_hash_desire_request` inserts a fresh entry only when the
hash is not yet tracked; a second call finds the key present and leaves the
map untouched. -/

/-- Claim C8: two `make_hash_desire_request` calls for the same hash leave
exactly one entry for it, and the second call changes nothing — in
particular the entry's providers, attempts and next-try time are those the
first call left. -/
theorem c8_desire_request_idempotent (m : Desired) (h : String) (t1 t2 : Int)
    (hnodup : (m.map Prod.fst).Nodup) :
    makeHashDesireRequest t2 (makeHashDesireRequest t1 m h) h
        = makeHashDesireRequest t1 m h
    ∧ ((makeHashDesireRequest t1 m h).map Prod.fst).count h = 1 := by
  by_cases hk : (alookup m h).isSome = true
  · have hmem : h ∈ m.map Prod.fst := (alookup_isSome_iff m h).mp hk
    constructor
    · simp [makeHashDesireRequest, hk]
    · simp only [makeHashDesireRequest, hk, if_true]
      exact List.count_eq_one_of_mem hnodup hmem
  · have hnone : alookup m h = none := by
      cases he : alookup m h with
      | none => rfl
      | some v => rw [he] at hk; simp at hk
    have hnotmem : h ∉ m.map Prod.fst := (alookup_eq_none_iff m h).mp hnone
    have h1 : makeHashDesireRequest t1 m h = m ++ [(h, ⟨[], 0, t1 + 60⟩)] := by
      simp [makeHashDesireRequest, hk]
      exact aset_of_none m h _ hnone
    have hsome1 : (alookup (m ++ [(h, (⟨[], 0, t1 + 60⟩ : DEntry))]) h).isSome = true := by
      rw [alookup_isSome_iff]
      simp
    constructor
    · rw [h1]
      simp [makeHashDesireRequest, hsome1]
    · rw [h1]
      simp [List.count_eq_zero_of_not_mem hnotmem]

/-- Claim C8 witness: applying the idempotence theorem to the empty desired
table at concrete times. -/
theorem c8_witness :
    (([] : Desired).map Prod.fst).Nodup
    ∧ (makeHashDesireRequest 5 (makeHashDesireRequest 0 [] "h") "h"
          = makeHashDesireRequest 0 [] "h"
        ∧ ((makeHashDesireRequest 0 [] "h").map Prod.fst).count "h" = 1) :=
  ⟨by simp, c8_desire_request_idempotent [] "h" 0 5 (by simp)⟩

/-! Claim C10.  In `add_data`, a known hash with a non-empty ancestor chain
that is not a storage (CHUNK) hash and whose chain starts at the own source
hash falls through both branches: nothing is decoded, nothing is written. -/

/-- Claim C10: for a known non-CHUNK hash whose ancestor chain is non-empty
and begins at this node's own source hash, `add_data` returns the state
unchanged for every payload and every decoder. -/
theorem c10_add_data_own_tree_noop (H : Bytes → String) (now : Int) (st : CidStore)
    (h : String) (node : Cid) (fuel : Nat) (ps : List String)
    (hnode : alookup st.index h = some node) (htype : node.type ≠ 3)
    (hchain : getParentHashes st.index fuel h = some ps)
    (hhead : ps.head? = some st.sourceHash) :
    ∀ decoder data, addData decoder H now st h data fuel = some st := by
  intro decoder data
  have hne : ps ≠ [] := by cases ps <;> simp_all
  simp [addData, hnode, hchain, hne, htype, hhead]

/-- Claim C10 witness: the DIR `d` of `c10Store` sits right below the own
SRC `s`; `add_data` with an arbitrary payload leaves the store unchanged. -/
theorem c10_witness :
    addData (fun _ => none) encHash 0 c10Store "d" [9, 9] 5 = some c10Store :=
  c10_add_data_own_tree_noop encHash 0 c10Store "d"
    ⟨"d", "docs", 1, 0, "s", [], true, 2⟩ 5 ["s"] rfl (by decide) rfl rfl
    (fun _ => none) [9, 9]

/-! Claim C3.  On a hash mismatch `add_data` only logs a warning — nothing is
persisted and no flag is touched — but the enclosing `got_response_data`
pops the desired entry for any non-empty response, so contrary to the claim
the entry does not remain and the scheduler will not re-attempt. -/

/-- Claim C3 counterexample: the chunk `wc` is in the index and the delivered
bytes `[9,9]` do not re-hash to `wc`, yet after `got_response_data` the
desired table is empty — the entry did not remain with `attempts`
incremented (the store itself is unchanged). -/
theorem c3_counterexample :
    gotResponseData (fun _ => none) encHash 0 c3Store
        [("wc", ⟨[], 2, 0⟩)] [(77, "wc")] 77 [9, 9] 9
        = some (c3Store, [], [])
    ∧ encHash [9, 9] ≠ "wc" := by
  exact ⟨by decide, by decide⟩

/-- Claim C3 (amended): when a fetched payload for an indexed CHUNK fails to
re-hash to its declared hash, `add_data` persists nothing — index, disk and
flags are unchanged — but the response handler still pops the desired entry
(with no attempts increment), so the hash is no longer tracked for
re-attempts. -/
theorem c3_mismatch_drops_desired_entry (decoder : Bytes → Option (List Cid))
    (H : Bytes → String) (now : Int) (st : CidStore) (desired : Desired)
    (reqMap : ReqMap) (reqId : Nat) (h : String) (node : Cid) (e : DEntry)
    (data : Bytes) (fuel : Nat) (ps : List String)
    (hreq : alookup reqMap reqId = some h)
    (hdes : alookup desired h = some e)
    (hnode : alookup st.index h = some node)
    (htype : node.type = 3)
    (hchain : getParentHashes st.index fuel h = some ps) (hps : ps ≠ [])
    (hdata : data ≠ [])
    (hmis : H data ≠ h) :
    gotResponseData decoder H now st desired reqMap reqId data fuel
        = some (st, aerase desired h, aerase reqMap reqId)
    ∧ alookup (aerase desired h) h = none := by
  refine ⟨?_, alookup_aerase desired h⟩
  simp [gotResponseData, hreq, hdata, addData, hnode, hchain, hps, htype,
    getDataHash, hmis, hdes]

/-- Claim C3 witness: the amended theorem applied to the `c3Store` scenario
with mismatching bytes `[8,8]`. -/
theorem c3_witness :
    (gotResponseData (fun _ => none) encHash 0 c3Store
          [("wc", ⟨[], 2, 0⟩)] [(77, "wc")] 77 [8, 8] 9
        = some (c3Store, aerase [("wc", ⟨[], 2, 0⟩)] "wc", aerase [(77, "wc")] 77))
    ∧ alookup (aerase ([("wc", (⟨[], 2, 0⟩ : DEntry))] : Desired) "wc") "wc" = none :=
  c3_mismatch_drops_desired_entry (fun _ => none) encHash 0 c3Store
    [("wc", ⟨[], 2, 0⟩)] [(77, "wc")] 77 "wc"
    ⟨"wc", "a.txt.chunk_0", 1, 2, "wf", [], false, 3⟩ ⟨[], 2, 0⟩ [8, 8] 9
    ["w", "wf"] rfl rfl rfl rfl rfl (by decide) (by decide) (by decide)

/-! Claim C9.  `clean_data` calls `os.remove(self.get_data_path(hash_id))`
for every orphaned CHUNK before popping it; when the chunk's bytes were
never fetched the file does not exist, `os.remove` raises
`FileNotFoundError`, and neither `clean_data` nor `remove_hash` catches it,
so the sweep dies with orphans still in the index. -/

/-- Claim C9: removing a FILE `f` below the SRC orphans its CHUNK `c`; with
`c`'s data file absent the cascade raises an uncaught file-not-found error
(`Except.error` with the state at the raise), and the index at that point
still contains the orphaned chunk — its parent is gone. -/
theorem c9_cascade_raises_on_missing_chunk (sh s f c : String)
    (src fnode cnode : Cid) (fs : FileStore)
    (hsf : s ≠ f) (hsc : s ≠ c) (hfc : f ≠ c)
    (hsrc : src.type = 0) (hf : fnode.type = 1) (hc : cnode.type = 3)
    (hcp : cnode.parent = f) (hfs : alookup fs c = none) :
    removeHash 9 ⟨sh, [(s, src), (f, fnode), (c, cnode)], fs⟩ f
        = some (Except.error ⟨sh, [(s, src), (c, cnode)], fs⟩)
    ∧ alookup ([(s, src), (c, cnode)] : Index) c = some cnode
    ∧ alookup ([(s, src), (c, cnode)] : Index) cnode.parent = none := by
  have hcf : c ≠ f := Ne.symm hfc
  have hcs : c ≠ s := Ne.symm hsc
  have hfs2 : f ≠ s := Ne.symm hsf
  refine ⟨?_, ?_, ?_⟩
  · simp [removeHash, cleanData, cleanLoop, aerase, List.filter, alookup,
      hsf, hsc, hfc, hcf, hcs, hfs2, hsrc, hf, hc, hcp, hfs]
  · simp [alookup, hsc]
  · rw [hcp]
    simp [alookup, hsf, hcf]

/-- Claim C9 witness: the cascade theorem applied to `c9Store`, whose chunk
`c` has no data file on disk. -/
theorem c9_witness :
    removeHash 9 c9Store "f"
        = some (Except.error ⟨"s", [("s", ⟨"s", "src", 1, 0, "root", ["f"], true, 0⟩),
            ("c", ⟨"c", "d.txt.chunk_0", 1, 3, "f", [], false, 3⟩)], []⟩)
    ∧ alookup ([("s", ⟨"s", "src", 1, 0, "root", ["f"], true, 0⟩),
        ("c", ⟨"c", "d.txt.chunk_0", 1, 3, "f", [], false, 3⟩)] : Index) "c"
        = some ⟨"c", "d.txt.chunk_0", 1, 3, "f", [], false, 3⟩
    ∧ alookup ([("s", ⟨"s", "src", 1, 0, "root", ["f"], true, 0⟩),
        ("c", ⟨"c", "d.txt.chunk_0", 1, 3, "f", [], false, 3⟩)] : Index)
        (Cid.parent ⟨"c", "d.txt.chunk_0", 1, 3, "f", [], false, 3⟩) = none :=
  c9_cascade_raises_on_missing_chunk "s" "s" "f" "c"
    ⟨"s", "src", 1, 0, "root", ["f"], true, 0⟩
    ⟨"f", "d.txt", 1, 3, "s", ["c"], false, 1⟩
    ⟨"c", "d.txt.chunk_0", 1, 3, "f", [], false, 3⟩ []
    (by decide) (by decide) (by decide) rfl rfl rfl rfl rfl

/-! Claim C4.  `check_is_stored` checks only `os.path.isfile` for a CHUNK —
it never re-hashes the file contents — so a chunk whose file exists with
corrupt bytes still counts as stored.  The rest of the claim (recursive
conjunction over children, FILE with no children not stored) matches the
code, with the additional conditions that every reached child must be
present in the index. -/

theorem reaches_shape {idx idx1 : Index} (hs : sameShape idx idx1) {h d : String}
    (hr : Reaches idx h d) : Reaches idx1 h d := by
  induction hr with
  | refl h => exact Reaches.refl h
  | step n hl hty hc _ ih =>
    obtain ⟨n1, hl1, hch1, hty1⟩ := sameShape_lookup hs hl
    exact Reaches.step n1 hl1 (by rw [hty1]; exact hty) (by rw [hch1]; exact hc) ih

theorem storedSpec_mono {idx idx1 : Index} (hs : sameShape idx idx1)
    {fs : FileStore} {h : String} (hsp : storedSpec idx fs h) :
    storedSpec idx1 fs h := by
  intro d hd
  obtain ⟨n, hn, h3, h1⟩ := hsp d (reaches_shape (sameShape_symm hs) hd)
  obtain ⟨n1, hn1, hch, hty⟩ := sameShape_lookup hs hn
  refine ⟨n1, hn1, fun ht => h3 ?_, fun ht => ?_⟩
  · rw [← hty]; exact ht
  · rw [hch]
    exact h1 (by rw [← hty]; exact ht)

theorem storedSpec_of_none {idx : Index} {fs : FileStore} {h : String}
    (hl : alookup idx h = none) : ¬storedSpec idx fs h := by
  intro hsp
  obtain ⟨n, hn, -, -⟩ := hsp h (Reaches.refl h)
  rw [hl] at hn
  exact Option.noConfusion hn

theorem storedSpec_chunk {idx : Index} {fs : FileStore} {h : String} {node : Cid}
    (hl : alookup idx h = some node) (hty : node.type = 3) :
    storedSpec idx fs h ↔ (alookup fs h).isSome = true := by
  constructor
  · intro hsp
    obtain ⟨n, hn, h3, -⟩ := hsp h (Reaches.refl h)
    rw [hl] at hn
    injection hn with he
    subst he
    exact h3 hty
  · intro hfs d hd
    have hd1 : d = h := by
      cases hd with
      | refl => rfl
      | step n hn hty2 hc hrest =>
        rw [hl] at hn
        injection hn with he
        subst he
        exact absurd hty hty2
    subst hd1
    exact ⟨node, hl, fun _ => hfs, fun h1 => absurd (hty.symm.trans h1) (by decide)⟩

theorem storedSpec_node {idx : Index} {fs : FileStore} {h : String} {node : Cid}
    (hl : alookup idx h = some node) (hty : node.type ≠ 3) :
    storedSpec idx fs h ↔
      ((node.type = 1 → node.children ≠ [])
        ∧ ∀ c ∈ node.children, storedSpec idx fs c) := by
  constructor
  · intro hsp
    constructor
    · obtain ⟨n, hn, -, h1⟩ := hsp h (Reaches.refl h)
      rw [hl] at hn
      injection hn with he
      subst he
      exact h1
    · intro c hc d hd
      exact hsp d (Reaches.step node hl hty hc hd)
  · rintro ⟨h1, hall⟩ d hd
    cases hd with
    | refl => exact ⟨node, hl, fun h3 => absurd h3 hty, h1⟩
    | step n hn hty2 hc hrest =>
      rw [hl] at hn
      injection hn with he
      subst he
      exact hall _ hc d hrest

theorem cis_bool_aux (fs : FileStore) : ∀ fuel : Nat,
    (∀ idx h idx2 b, checkIsStored fs fuel idx h = some (idx2, b) →
      (b = true ↔ storedSpec idx fs h))
    ∧ (∀ idx cs acc idx2 b, checkList fs fuel idx cs acc = some (idx2, b) →
      (b = true ↔ (acc = true ∧ ∀ c ∈ cs, storedSpec idx fs c))) := by
  intro fuel
  induction fuel with
  | zero =>
    constructor
    · intro idx h idx2 b hrun
      simp [checkIsStored] at hrun
    · intro idx cs acc idx2 b hrun
      cases cs with
      | nil =>
        simp only [checkList, Option.some.injEq, Prod.mk.injEq] at hrun
        obtain ⟨-, hb⟩ := hrun
        subst hb
        simp
      | cons c cs => simp [checkList, checkIsStored] at hrun
  | succ n ih =>
    have hP : ∀ idx h idx2 b, checkIsStored fs (n + 1) idx h = some (idx2, b) →
        (b = true ↔ storedSpec idx fs h) := by
      intro idx h idx2 b hrun
      cases hl : alookup idx h with
      | none =>
        simp only [checkIsStored, hl, Option.some.injEq, Prod.mk.injEq] at hrun
        obtain ⟨-, hb⟩ := hrun
        subst hb
        simp [storedSpec_of_none hl]
      | some node =>
        simp only [checkIsStored, hl] at hrun
        by_cases hty : node.type ≠ 3
        · rw [if_pos hty] at hrun
          cases hcl : checkList fs n idx node.children
              (!(node.children.isEmpty && node.type == 1)) with
          | none => rw [hcl] at hrun; exact absurd hrun (by simp)
          | some res1 =>
            obtain ⟨idx1, stored⟩ := res1
            rw [hcl] at hrun
            simp only [Option.some.injEq, Prod.mk.injEq] at hrun
            obtain ⟨-, hb⟩ := hrun
            subst hb
            rw [ih.2 idx node.children _ idx1 stored hcl,
              storedSpec_node hl hty]
            have hinit : (!(node.children.isEmpty && node.type == 1)) = true
                ↔ (node.type = 1 → node.children ≠ []) := by
              simp [List.isEmpty_iff]
              tauto
            exact and_congr hinit Iff.rfl
        · rw [if_neg hty] at hrun
          simp only [Option.some.injEq, Prod.mk.injEq] at hrun
          obtain ⟨-, hb⟩ := hrun
          subst hb
          rw [storedSpec_chunk hl (not_not.mp hty)]
    refine ⟨hP, ?_⟩
    intro idx cs
    induction cs generalizing idx with
    | nil =>
      intro acc idx2 b hrun
      simp only [checkList, Option.some.injEq, Prod.mk.injEq] at hrun
      obtain ⟨-, hb⟩ := hrun
      subst hb
      simp
    | cons c cs ihc =>
      intro acc idx2 b hrun
      cases hc : checkIsStored fs (n + 1) idx c with
      | none => simp [checkList, hc] at hrun
      | some res1 =>
        obtain ⟨idx1, cst⟩ := res1
        simp only [checkList, hc] at hrun
        have hshape : sameShape idx idx1 :=
          (cis_shape_aux fs (n + 1)).1 idx c (idx1, cst) hc
        have h1 := hP idx c idx1 cst hc
        have h2 := ihc idx1 (acc && cst) idx2 b hrun
        rw [h2]
        constructor
        · rintro ⟨hac, hall⟩
          rw [Bool.and_eq_true] at hac
          refine ⟨hac.1, ?_⟩
          intro x hx
          rcases List.mem_cons.mp hx with hx1 | hx2
          · subst hx1
            exact h1.mp hac.2
          · exact storedSpec_mono (sameShape_symm hshape) (hall x hx2)
        · rintro ⟨hacc, hall⟩
          refine ⟨?_, ?_⟩
          · rw [Bool.and_eq_true]
            exact ⟨hacc, h1.mpr (hall c (by simp))⟩
          · intro x hx
            exact storedSpec_mono hshape (hall x (by simp [hx]))

/-- Claim C4 counterexample: the chunk `kc`'s data file exists but holds
bytes `[9,9]` that do not re-hash to `kc`; `check_is_stored` nevertheless
reports it stored — the code checks file existence only, never the re-hash
demanded by the claim. -/
theorem c4_counterexample :
    checkIsStored c4BadFs 2 c4BadIdx "kc"
        = some ([("kc", ⟨"kc", "k", 1, 2, "kp", [], true, 3⟩)], true)
    ∧ getDataHash encHash c4BadIdx 2 "kp" [9, 9] false ≠ some "kc" := by
  constructor
  · simp [checkIsStored, checkList, c4BadIdx, c4BadFs, alookup, aset]
  · decide

/-- Claim C4 (amended): whenever `check_is_stored` completes, it returns
true iff every node reached from `H` through children of non-CHUNK nodes is
present in the index, every reached CHUNK has its data file on disk (no
re-hash), and no reached FILE — `H` included — has an empty child list. -/
theorem c4_check_is_stored_characterization (fs : FileStore) (fuel : Nat)
    (idx idx2 : Index) (h : String) (b : Bool)
    (hrun : checkIsStored fs fuel idx h = some (idx2, b)) :
    b = true ↔ storedSpec idx fs h :=
  (cis_bool_aux fs fuel).1 idx h idx2 b hrun

/-- Claim C4 witness: on `c4WIdx`, whose chunk `vc` has no data file,
`check_is_stored` returns false from the SRC `v`, and by the
characterization theorem the storage-closure predicate indeed fails. -/
theorem c4_witness : ¬storedSpec c4WIdx [] "v" := by
  intro hsp
  have hrun : checkIsStored [] 5 c4WIdx "v"
      = some ([("v", ⟨"v", "src", 1, 0, "root", ["vf"], false, 0⟩),
               ("vf", ⟨"vf", "b.txt", 1, 2, "v", ["vc"], false, 1⟩),
               ("vc", ⟨"vc", "b.txt.chunk_0", 1, 2, "vf", [], false, 3⟩)], false) := by
    simp [checkIsStored, checkList, c4WIdx, alookup, aset]
  have hch := (c4_check_is_stored_characterization [] 5 c4WIdx _ "v" false hrun).mpr hsp
  exact Bool.false_ne_true hch

/-! Lemmas about the chunking loop, for claims C1 and C7. -/

theorem addNode_chunk_eq (H : Bytes → String) (now : Int) (st : CidStore)
    (name parent : String) (t : Option Int) (d : Bytes) (s : Bool) (fuel : Nat) :
    addNode H now st name parent 3 t d s fuel
      = addChunkNode H now st name parent t d s fuel := by
  simp only [addNode, addChunkNode]
  cases addNodeCore H now st name parent 3 t d s fuel with
  | none => rfl
  | some r =>
    obtain ⟨st2, hd, ts⟩ := r
    simp

theorem chunkSlicesAux_flatten : ∀ (n : Nat) (d : Bytes), d.length ≤ n →
    (chunkSlicesAux n d).flatten = d := by
  intro n
  induction n with
  | zero =>
    intro d hd
    have hde : d = [] := List.length_eq_zero.mp (Nat.le_zero.mp hd)
    simp [chunkSlicesAux, hde]
  | succ n ih =>
    intro d hd
    by_cases hde : d = []
    · simp [chunkSlicesAux, hde]
    · simp only [chunkSlicesAux, if_neg hde, List.flatten_cons]
      rw [ih (d.drop chunkSize) ?_]
      · exact List.take_append_drop chunkSize d
      · have hp : 0 < d.length := List.length_pos.mpr hde
        simp only [List.length_drop, chunkSize]
        omega

theorem chunkSlices_flatten (d : Bytes) : (chunkSlices d).flatten = d :=
  chunkSlicesAux_flatten d.length d (le_refl _)

theorem chunkSlicesAux_ne_nil : ∀ (n : Nat) (d s : Bytes),
    s ∈ chunkSlicesAux n d → s ≠ [] := by
  intro n
  induction n with
  | zero =>
    intro d s hs
    simp [chunkSlicesAux] at hs
  | succ n ih =>
    intro d s hs
    by_cases hde : d = []
    · simp [chunkSlicesAux, hde] at hs
    · simp only [chunkSlicesAux, if_neg hde, List.mem_cons] at hs
      rcases hs with hs | hs
      · subst hs
        obtain ⟨x, xs, rfl⟩ := List.exists_cons_of_ne_nil hde
        simp [show chunkSize = 10239 + 1 from rfl]
      · exact ih _ s hs

theorem chunkSlices_ne_nil (d s : Bytes) (hs : s ∈ chunkSlices d) : s ≠ [] :=
  chunkSlicesAux_ne_nil d.length d s hs

theorem collectBytes_of_pointwise (H : Bytes → String) (f : String → Option Bytes) :
    ∀ slices : List Bytes, (∀ s ∈ slices, f (H s) = some s) →
    collectBytes f (slices.map H) = some slices := by
  intro slices
  induction slices with
  | nil => intro _; rfl
  | cons s rest ih =>
    intro hpt
    have h1 : f (H s) = some s := hpt s (by simp)
    have h2 := ih (fun x hx => hpt x (by simp [hx]))
    simp [collectBytes, h1, h2]

theorem addChunkList_spec (H : Bytes → String) (now : Int) (fuel : Nat)
    (name fileHash : String) (ts : Int) :
    ∀ (slices : List Bytes) (i : Nat) (st : CidStore) (fnode : Cid),
    alookup st.index fileHash = some fnode →
    (∀ s ∈ slices, s ≠ []) →
    (slices.map H).Nodup →
    (∀ s ∈ slices, H s ≠ fileHash) →
    (∀ s ∈ slices, H s ∉ fnode.children) →
    ∃ st1, addChunkList H now st name fileHash ts slices i fuel = some st1
      ∧ alookup st1.index fileHash
          = some { fnode with children := fnode.children ++ slices.map H }
      ∧ (∀ s ∈ slices, alookup st1.fs (H s) = some s)
      ∧ (∀ s ∈ slices, ∃ cn, alookup st1.index (H s) = some cn ∧ cn.type = 3)
      ∧ (∀ k, k ∉ slices.map H → alookup st1.fs k = alookup st.fs k)
      ∧ (∀ k, k ∉ slices.map H → k ≠ fileHash →
          alookup st1.index k = alookup st.index k) := by
  intro slices
  induction slices with
  | nil =>
    intro i st fnode hf _ _ _ _
    refine ⟨st, rfl, by simpa using hf, by simp, by simp,
      fun k _ => rfl, fun k _ _ => rfl⟩
  | cons s rest ih =>
    intro i st fnode hf hne hnd hnfh hnch
    have hsne : s ≠ [] := hne s (by simp)
    have hslen : s.length ≠ 0 := fun hh => hsne (List.length_eq_zero.mp hh)
    have hHsfh : H s ≠ fileHash := hnfh s (by simp)
    have hfhHs : ¬fileHash = H s := fun hh => hHsfh hh.symm
    have hmem : H s ∉ fnode.children := hnch s (by simp)
    have hnd0 := hnd
    rw [List.map_cons] at hnd0
    obtain ⟨hnotin, hnd1⟩ := List.nodup_cons.mp hnd0
    set tsv : Int := if ts = 0 then now else ts with htsv
    set chunkCid : Cid := Cid.mk (H s) (name ++ ".chunk_" ++ toString i) tsv
      s.length fileHash [] true 3 with hcc
    set fnodeA : Cid := { fnode with children := fnode.children ++ [H s] } with hfa
    set stA : CidStore := { st with
      index := aset (aset st.index fileHash fnodeA) (H s) chunkCid,
      fs := aset st.fs (H s) s } with hsta
    have hcn : addChunkNode H now st (name ++ ".chunk_" ++ toString i) fileHash
        (some ts) s false fuel = some (stA, H s) := by
      simp only [addNodeCore, addChunkNode, if_pos hsne, hsta, hfa, hcc, htsv]
      simp [getDataHash, hf, hmem, hslen]
    have hlookA : alookup stA.index fileHash = some fnodeA := by
      rw [hsta]
      simp only []
      rw [alookup_aset_ne _ _ hfhHs, alookup_aset_self]
    have hchA : ∀ x ∈ rest, H x ∉ fnodeA.children := by
      intro x hx
      rw [hfa]
      simp only [List.mem_append, List.mem_singleton]
      rintro (hin | heq)
      · exact hnch x (by simp [hx]) hin
      · exact hnotin (heq ▸ List.mem_map_of_mem H hx)
    obtain ⟨st1, hrun1, hlook1, hfs1, hcn1, hfsp1, hidxp1⟩ :=
      ih (i + 1) stA fnodeA hlookA (fun x hx => hne x (by simp [hx])) hnd1
        (fun x hx => hnfh x (by simp [hx])) hchA
    refine ⟨st1, ?_, ?_, ?_, ?_, ?_, ?_⟩
    · simp only [addChunkList, hcn, hrun1]
    · rw [hlook1, hfa]
      simp [List.append_assoc]
    · intro x hx
      rcases List.mem_cons.mp hx with hx1 | hx2
      · subst hx1
        rw [hfsp1 (H x) hnotin, hsta]
        simp only []
        exact alookup_aset_self _ _ _
      · exact hfs1 x hx2
    · intro x hx
      rcases List.mem_cons.mp hx with hx1 | hx2
      · subst hx1
        refine ⟨chunkCid, ?_, by rw [hcc]⟩
        rw [hidxp1 (H x) hnotin hHsfh, hsta]
        simp only []
        exact alookup_aset_self _ _ _
      · exact hcn1 x hx2
    · intro k hk
      have hk1 : k ∉ rest.map H := fun hh => hk (by simp [hh])
      have hk2 : ¬k = H s := fun hh => hk (by simp [hh])
      rw [hfsp1 k hk1, hsta]
      simp only []
      exact alookup_aset_ne _ _ hk2
    · intro k hk hkf
      have hk1 : k ∉ rest.map H := fun hh => hk (by simp [hh])
      have hk2 : ¬k = H s := fun hh => hk (by simp [hh])
      rw [hidxp1 k hk1 hkf, hsta]
      simp only []
      rw [alookup_aset_ne _ _ hk2]
      exact alookup_aset_ne _ _ hkf

/-- Anatomy of a successful `add_file` call with non-empty data: the checks
passed, the FILE hash is the source-salted data hash of the whole payload,
the FILE node is in the index with no children yet, and the state handed to
the chunking loop is as `add_node` built it. -/
theorem addFile_success_unfold (H : Bytes → String) (now : Int) (st : CidStore)
    (fn : String) (data : Bytes) (P : String) (fuel : Nat) (st1 : CidStore)
    (F : String) (hdata : data ≠ [])
    (hrun : addFile H now st fn data (some P) fuel = some (st1, some F)) :
    ∃ (ps : List String) (st3 : CidStore) (ts3 : Int),
      getParentHashes st.index fuel P = some ps
      ∧ getDataHash H st.index fuel P data true = some F
      ∧ addNodeCore H now st fn P 1 none data false fuel = some (st3, F, ts3)
      ∧ alookup st3.index F = some (Cid.mk F fn ts3 data.length P [] true 1)
      ∧ addChunkList H now st3 fn F ts3 (chunkSlices data) 0 fuel = some st1 := by
  simp only [addFile, Option.getD_some] at hrun
  cases hp : alookup st.index P with
  | none => simp only [hp] at hrun; simp at hrun
  | some pnode =>
    simp only [hp] at hrun
    by_cases hty : pnode.type = 1 ∨ pnode.type = 3
    · rw [if_pos hty] at hrun; simp at hrun
    · rw [if_neg hty] at hrun
      cases hps : getParentHashes st.index fuel P with
      | none => simp only [hps] at hrun; simp at hrun
      | some ps =>
        simp only [hps] at hrun
        by_cases hauth : st.sourceHash ∉ ps ∧ st.sourceHash ≠ P
        · rw [if_pos hauth] at hrun; simp at hrun
        · rw [if_neg hauth] at hrun
          cases han : addNode H now st fn P 1 none data false fuel with
          | none => simp only [han] at hrun; simp at hrun
          | some q =>
            obtain ⟨st2, hd⟩ := q
            simp only [han] at hrun
            simp only [Option.map_some', Option.some.injEq, Prod.mk.injEq] at hrun
            obtain ⟨hst, hF⟩ := hrun
            simp only [addNode] at han
            cases hcore : addNodeCore H now st fn P 1 none data false fuel with
            | none => simp only [hcore] at han; simp at han
            | some r =>
              obtain ⟨st3, hd3, ts3⟩ := r
              simp only [hcore] at han
              have hlen : List.length data ≠ 0 :=
                fun hh => hdata (List.length_eq_zero.mp hh)
              rw [if_pos (⟨hlen, trivial⟩ : List.length data ≠ 0 ∧ True)] at han
              cases hacl : addChunkList H now st3 fn hd3 ts3 (chunkSlices data) 0 fuel with
              | none => simp only [hacl] at han; simp at han
              | some st4 =>
                simp only [hacl] at han
                simp only [Option.map_some', Option.some.injEq, Prod.mk.injEq] at han
                obtain ⟨hst4, hdd⟩ := han
                -- now unfold the core computation
                have hcore1 := hcore
                simp only [addNodeCore] at hcore1
                rw [if_pos hdata] at hcore1
                rw [show (decide ¬(1 : Nat) = 3) = true from rfl] at hcore1
                cases hgd : getDataHash H st.index fuel P data true with
                | none => simp only [hgd] at hcore1; simp at hcore1
                | some hv =>
                  simp only [hgd] at hcore1
                  simp only [Option.map_some'] at hcore1
                  simp only [hp] at hcore1
                  simp only [Option.some.injEq, Prod.mk.injEq] at hcore1
                  obtain ⟨hst3, hv3, hts3⟩ := hcore1
                  subst hv3
                  subst hts3
                  subst hdd
                  subst hF
                  subst hst4
                  subst hst
                  subst hst3
                  exact ⟨ps, _, now, rfl, rfl, rfl, alookup_aset_self _ _ _, hacl⟩

/-! Claim C7.  `add_node` gives a data-carrying node the source-salted data
hash `H(path_hash(parent) || data)`, not the bare `path_hash(parent)`: a
FILE's identity depends on the uploaded bytes (only an empty upload falls
back to the path hash). -/

/-- Claim C7 counterexample: uploading the single byte `[1]` succeeds and
returns the FILE hash `#35.49.49.53.1` = H(path_hash("s") ++ [1]), which is
not `path_hash("s") = #115`. -/
theorem c7_counterexample :
    (addFile encHash 99 c7Store "f" [1] (some "s") 9).map (fun p => p.2)
        = some (some "#35.49.49.53.1")
    ∧ getPathHash encHash c7Store.index 9 "s" = some "#115"
    ∧ ("#35.49.49.53.1" : String) ≠ "#115" :=
  ⟨by decide, by decide, by decide⟩

/-- Claim C7 (amended): every successful `add_file` call with non-empty data
returns the FILE hash `data_hash(parent, data, include_source=true)` — a
function of the ancestor chain and of the uploaded bytes. -/
theorem c7_file_hash_depends_on_bytes (H : Bytes → String) (now : Int)
    (st : CidStore) (fn : String) (data : Bytes) (P : String) (fuel : Nat)
    (F : String) (hdata : data ≠ [])
    (hrun : (addFile H now st fn data (some P) fuel).map (fun p => p.2)
        = some (some F)) :
    getDataHash H st.index fuel P data true = some F := by
  cases har : addFile H now st fn data (some P) fuel with
  | none => rw [har] at hrun; simp at hrun
  | some pr =>
    obtain ⟨st1, sf⟩ := pr
    rw [har] at hrun
    simp only [Option.map_some', Option.some.injEq] at hrun
    subst hrun
    obtain ⟨ps, st3, ts3, -, hgd, -, -, -⟩ :=
      addFile_success_unfold H now st fn data P fuel st1 F hdata har
    exact hgd

/-- Claim C7 witness: the amended theorem applied to the upload of `[1]`
under the SRC of `c7Store`. -/
theorem c7_witness :
    getDataHash encHash c7Store.index 9 "s" [1] true = some "#35.49.49.53.1" :=
  c7_file_hash_depends_on_bytes encHash 99 c7Store "f" [1] "s" 9 "#35.49.49.53.1"
    (by decide) (by decide)

/-! Claim C1.  The round trip holds for non-empty data whose minted chunk
hashes are pairwise distinct and distinct from the FILE hash.  It fails for
empty data (the FILE falls back to the path hash, violating the
`data_hash` equation), and a byte sequence with two identical chunk-size
slices would collapse to a single child (`add_node` refuses duplicate
children), losing bytes. -/

/-- Claim C1 counterexample: `add_file` of the empty byte sequence succeeds
and its chunk concatenation is empty as claimed, but the returned FILE hash
is `path_hash("s") = #115`, not `data_hash("s", b"", include_source=true)
= #35.49.49.53` — the claimed identity fails at `B = b""`. -/
theorem c1_counterexample :
    addFile encHash 99 c1Store "f" [] (some "s") 9
        = some (⟨"s", [("s", ⟨"s", "src", 1, 0, "root", ["#115"], true, 0⟩),
            ("#115", ⟨"#115", "f", 99, 0, "s", [], false, 1⟩)], []⟩, some "#115")
    ∧ chunkConcat ⟨"s", [("s", ⟨"s", "src", 1, 0, "root", ["#115"], true, 0⟩),
            ("#115", ⟨"#115", "f", 99, 0, "s", [], false, 1⟩)], []⟩ "#115" = some []
    ∧ getDataHash encHash c1Store.index 9 "s" [] true = some "#35.49.49.53"
    ∧ ("#35.49.49.53" : String) ≠ "#115" :=
  ⟨by decide, by decide, by decide, by decide⟩

/-- Claim C1 (amended): for every successful `add_file(name, P, B)` with
non-empty `B` whose minted chunk hashes are pairwise distinct and differ
from the FILE hash `F`: `F = data_hash(P, B, include_source=true)`, the
FILE node's children are exactly the chunk hashes in slice order and all of
type CHUNK, and concatenating the stored bytes of the children in child
order re-assembles `B`. -/
theorem c1_round_trip (H : Bytes → String) (now : Int) (st : CidStore)
    (fn : String) (data : Bytes) (P : String) (fuel : Nat) (st1 : CidStore)
    (F : String) (hdata : data ≠ [])
    (hnodup : ((chunkSlices data).map H).Nodup)
    (hneF : ∀ s ∈ chunkSlices data, H s ≠ F)
    (hrun : addFile H now st fn data (some P) fuel = some (st1, some F)) :
    getDataHash H st.index fuel P data true = some F
    ∧ (∃ fnode, alookup st1.index F = some fnode ∧ fnode.type = 1
        ∧ fnode.children = (chunkSlices data).map H
        ∧ ∀ c ∈ fnode.children, ∃ cn, alookup st1.index c = some cn ∧ cn.type = 3)
    ∧ chunkConcat st1 F = some data := by
  obtain ⟨ps, st3, ts3, hps, hgd, hcore, hlookF, hacl⟩ :=
    addFile_success_unfold H now st fn data P fuel st1 F hdata hrun
  obtain ⟨st1x, hrunx, hlook1, hfs1, hcn1, -, -⟩ :=
    addChunkList_spec H now fuel fn F ts3 (chunkSlices data) 0 st3
      (Cid.mk F fn ts3 data.length P [] true 1) hlookF
      (fun s hs => chunkSlices_ne_nil data s hs) hnodup hneF
      (fun s _ => by simp)
  have hst1 : st1x = st1 := by
    rw [hrunx] at hacl
    injection hacl
  rw [hst1] at hlook1 hfs1 hcn1
  have hlook2 : alookup st1.index F
      = some (Cid.mk F fn ts3 data.length P ((chunkSlices data).map H) true 1) :=
    hlook1
  refine ⟨hgd, ⟨Cid.mk F fn ts3 data.length P ((chunkSlices data).map H) true 1,
    hlook2, rfl, rfl, ?_⟩, ?_⟩
  · intro c hc
    simp only [List.mem_map] at hc
    obtain ⟨s, hs, rfl⟩ := hc
    exact hcn1 s hs
  · simp only [chunkConcat, hlook2, Option.some_bind]
    rw [collectBytes_of_pointwise H (alookup st1.fs) (chunkSlices data) hfs1]
    simp [chunkSlices_flatten]

/-- Claim C1 witness: uploading `[1,2,3]` (one chunk) under the SRC of
`c1Store` yields `c1OutStore`; the round-trip theorem applies with all side
conditions discharged by computation. -/
theorem c1_witness :
    getDataHash encHash c1Store.index 9 "s" [1, 2, 3] true
        = some "#35.49.49.53.1.2.3"
    ∧ (∃ fnode, alookup c1OutStore.index "#35.49.49.53.1.2.3" = some fnode
        ∧ fnode.type = 1
        ∧ fnode.children = (chunkSlices [1, 2, 3]).map encHash
        ∧ ∀ c ∈ fnode.children,
            ∃ cn, alookup c1OutStore.index c = some cn ∧ cn.type = 3)
    ∧ chunkConcat c1OutStore "#35.49.49.53.1.2.3" = some [1, 2, 3] :=
  c1_round_trip encHash 99 c1Store "f" [1, 2, 3] "s" 9 c1OutStore
    "#35.49.49.53.1.2.3" (by decide) (by decide) (by decide) (by decide)

end RFS
